import Mathlib

/-!
Verification of the epub-translator translation pipeline
(`src/epub_translator/translation/{chunk.py, splitter.py, translation.py}`).

Shallow embedding conventions:
* Python strings are modelled as their UTF-8 byte lists, `Text := List Nat`
  (the code hashes and separates texts at the byte level with `b"\x00"`).
* The target language (`types.py`, not included in the sources) is modelled
  by the byte list of its `.value` identifier string, per the spec's
  "target language identifier".
* The SHA-512 digest of `_hash_texts_list` is modelled as the exact byte
  message fed to the digest (an ideal injective hash): equalities between
  modelled hashes correspond to equalities between digest preimages.
* The token codec (`llm.encode_tokens` / `llm.decode_tokens`) is an external
  collaborator; it is passed in as explicit `encode` / `decode` functions.
* Machine integers are modelled as `Nat` (all quantities involved —
  indices, token counts — are non-negative in the source).
-/

namespace EpubTranslator

/-- A Python `str`, modelled as its UTF-8 byte list. -/
abbrev Text := List Nat

/-- The target language, modelled as the UTF-8 bytes of `language.value`
(`types.py` is not among the sources; modelled from the spec's
"target language identifier"). -/
abbrev Language := List Nat

/-- Incision marker on a fragment boundary.  Modelled from the spec:
`start_incision`/`end_incision` mark whether the segmentation algorithm may
cut immediately before/after a fragment (`types.py` is not among the
sources). -/
inductive Incision where
  | possible
  | impossible
  | unset
deriving DecidableEq, Repr

/-- Modelled from the spec: a `Fragment` is one atomic translatable unit
`{ text, start_incision, end_incision }` (`types.py` is not among the
sources; only `.text` is read by the code under verification). -/
structure Fragment where
  text : Text
  start_incision : Incision := Incision.unset
  end_incision : Incision := Incision.unset
deriving DecidableEq, Repr

/-- Dataclass `Chunk` of `chunk.py`. -/
structure Chunk where
  index : Nat
  hash : List Nat
  head : List Text
  body : List Text
  tail : List Text
  tokens_count : Nat
deriving DecidableEq, Repr

/-- Dataclass `ChunkRange` of `chunk.py`. -/
structure ChunkRange where
  index : Nat
  head_remain_tokens : Nat
  tail_remain_tokens : Nat
  head_index : Nat
  body_index : Nat
  tail_index : Nat
  fragments_count : Nat
  tokens_count : Nat
deriving DecidableEq, Repr

/-- Method `ChunkRange.match` of `chunk.py`:
`self.head_index <= index < self.head_index + self.fragments_count`
(`match` is a Lean keyword, hence the name `matchIdx`). -/
def ChunkRange.matchIdx (r : ChunkRange) (index : Nat) : Bool :=
  r.head_index ≤ index && index < r.head_index + r.fragments_count

/-- Function `_hash_texts_list` of `chunk.py`, with the SHA-512 digest modelled as its
preimage message: the language identifier bytes followed, for every text of
every list, by a `0x00` separator and the text's bytes. -/
def hash_texts_list (target_language : Language) (texts_iterable : List (List Text)) :
    List Nat :=
  target_language ++ texts_iterable.flatMap (fun texts => texts.flatMap (fun t => 0 :: t))

/-- Python slice `tokens[-n:]` for `n ≥ 0`: the last `n` elements, except
that `n = 0` yields the whole list (`-0 == 0` in Python). -/
def pyTakeLast (l : List Nat) (n : Nat) : List Nat :=
  if n = 0 then l else l.drop (l.length - n)

/-- The accumulation loop of `_crop_extra_texts` (`chunk.py`), acting on the
already-encoded token lists, in iteration order (the caller reverses the list
first when `crop_left`).  Returns the kept token lists in append order. -/
def cropLoop (tokensList : List (List Nat)) (crop_left : Bool)
    (remain_tokens_count : Nat) : List (List Nat) :=
  match tokensList with
  | [] => []
  | tokens :: rest =>
    if remain_tokens_count ≥ tokens.length then
      if remain_tokens_count - tokens.length = 0 then
        [tokens]
      else
        tokens :: cropLoop rest crop_left (remain_tokens_count - tokens.length)
    else
      [if crop_left then pyTakeLast tokens remain_tokens_count
       else tokens.take remain_tokens_count]

/-- Function `_crop_extra_texts` of `chunk.py`: encode every text, walk the token
lists (reversed for a head crop), keep whole texts while the budget lasts,
slice the first text that overflows the budget, decode, and restore order
for a head crop. -/
def crop_extra_texts (encode : Text → List Nat) (decode : List Nat → Text)
    (texts : List Text) (crop_left : Bool) (remain_tokens_count : Nat) : List Text :=
  let tokensList := texts.map encode
  let iterated := if crop_left then tokensList.reverse else tokensList
  let remainTexts := (cropLoop iterated crop_left remain_tokens_count).map decode
  if crop_left then remainTexts.reverse else remainTexts

/-- The inner `while True` loop of `_match_range_and_texts` (`chunk.py`) at
fragment position `idx`: repeatedly take the pending `next_chunk_range`
(pulling the next one from the range list when it is unset), stop as soon as
there is none left or it does not match `idx`, and collect every range that
matched.  Returns (newly matched ranges, retained pending range, remaining
ranges). -/
def pullAux (idx : Nat) : ChunkRange → List ChunkRange →
    List ChunkRange × Option ChunkRange × List ChunkRange
  | r, [] => if r.matchIdx idx then ([r], none, []) else ([], some r, [])
  | r, r2 :: rest =>
    if r.matchIdx idx then
      let p := pullAux idx r2 rest
      (r :: p.1, p.2)
    else ([], some r, r2 :: rest)

/-- Entry point of the inner `while True` loop: dispatch on whether a
pending `next_chunk_range` is already bound. -/
def pullMatching (idx : Nat) (o : Option ChunkRange) (rs : List ChunkRange) :
    List ChunkRange × Option ChunkRange × List ChunkRange :=
  match o with
  | some r => pullAux idx r rs
  | none =>
    match rs with
    | [] => ([], none, [])
    | r :: rest => pullAux idx r rest

/-- The fragment loop of `_match_range_and_texts` (`chunk.py`), made explicit
in the fragment position `idx`, the pending range state and the in-flight
accumulators.  Each newly matched range starts with an empty accumulator;
entries that still match the current index receive the fragment's text,
entries that stopped matching are yielded (in buffer order, before anything
from later fragment positions); when the fragment stream ends, all in-flight
accumulators are yielded. -/
def matchLoop (idx : Nat) (fragments : List Fragment)
    (nextRange : Option ChunkRange) (restRanges : List ChunkRange)
    (matched : List (ChunkRange × List Text)) : List (ChunkRange × List Text) :=
  match fragments with
  | [] => matched
  | f :: fs =>
    let p := pullMatching idx nextRange restRanges
    let entries := matched ++ p.1.map (fun c => (c, ([] : List Text)))
    let yielded := entries.filter (fun e => !(e.1.matchIdx idx))
    let kept := (entries.filter (fun e => e.1.matchIdx idx)).map
      (fun e => (e.1, e.2 ++ [f.text]))
    yielded ++ matchLoop (idx + 1) fs p.2.1 p.2.2 kept

/-- Function `_match_range_and_texts` of `chunk.py`. -/
def match_range_and_texts (chunk_ranges : List ChunkRange)
    (fragments : List Fragment) : List (ChunkRange × List Text) :=
  matchLoop 0 fragments none chunk_ranges []

/-- The per-range body of `match_fragments` (`chunk.py`): split the
accumulated texts into head/body/tail by the recorded lengths, hash the
uncropped lists, crop head and tail to their token budgets, and build the
`Chunk`. -/
def chunkOfRangeTexts (encode : Text → List Nat) (decode : List Nat → Text)
    (target_language : Language) (range : ChunkRange) (texts : List Text) : Chunk :=
  let head_length := range.body_index - range.head_index
  let body_length := range.tail_index - range.body_index
  let head := texts.take head_length
  let body := (texts.drop head_length).take body_length
  let tail := texts.drop (head_length + body_length)
  let hash := hash_texts_list target_language [head, body, tail]
  let head := crop_extra_texts encode decode head true range.head_remain_tokens
  let tail := crop_extra_texts encode decode tail false range.tail_remain_tokens
  { hash := hash
    head := head
    body := body
    tail := tail
    index := range.index
    tokens_count := range.tokens_count }

/-- Function `match_fragments` of `chunk.py`. -/
def match_fragments (encode : Text → List Nat) (decode : List Nat → Text)
    (target_language : Language) (chunk_ranges : List ChunkRange)
    (fragments : List Fragment) : List Chunk :=
  (match_range_and_texts chunk_ranges fragments).map
    (fun e => chunkOfRangeTexts encode decode target_language e.1 e.2)

/-! ## OrderedEmitter: `_sort_translated_texts_by_chunk` (`translation.py`) -/

/-- The mutable state of `_sort_translated_texts_by_chunk`. -/
structure SortState where
  buffer : List (Chunk × List Text)
  wanna_next_index : Nat
  translated_tokens_count : Nat
deriving Repr

/-- Buffer ordering used by `buffer.sort(key=lambda e: e[0].index)`. -/
def chunkLE (a b : Chunk × List Text) : Prop := a.1.index ≤ b.1.index

instance : DecidableRel chunkLE := fun a b =>
  inferInstanceAs (Decidable (a.1.index ≤ b.1.index))

instance : IsTotal (Chunk × List Text) chunkLE :=
  ⟨fun a b => Nat.le_total a.1.index b.1.index⟩

instance : IsTrans (Chunk × List Text) chunkLE :=
  ⟨fun _ _ _ hab hbc => Nat.le_trans hab hbc⟩

/-- The flush loop of `_sort_translated_texts_by_chunk`: walk the sorted
buffer, breaking at the first entry whose index exceeds the cursor; collect
every walked entry's texts into `to_clear` and advance the cursor past each
entry whose index equals it.  Returns `(to_clear, cursor, last Python loop
variable `chunk` after the walk)` — the Python `for` target leaks, so the
caller needs that last value. -/
def flushScan : List (Chunk × List Text) → Nat →
    List (List Text) × Nat × Option Chunk
  | [], w => ([], w, none)
  | (c, t) :: rest, w =>
    if w < c.index then ([], w, some c)
    else
      let w1 := if c.index = w then w + 1 else w
      let p := flushScan rest w1
      (t :: p.1, p.2.1, some (p.2.2.getD c))

/-- One iteration of the arrival loop of `_sort_translated_texts_by_chunk`:
append the arrival to the buffer; if its chunk index equals the cursor, sort
the buffer by chunk index, flush the walked prefix and emit its texts.  In
either case add a token weight to the running total — the weight of the
Python variable `chunk`, which the flush loop rebinds to the last buffer
entry it walked — and report `running_total / total_tokens_count`.
Returns (new state, emitted texts, reported progress value). -/
def sortStep (total_tokens_count : Nat) (st : SortState)
    (arrival : Chunk × List Text) : SortState × List Text × ℚ :=
  let buf := st.buffer ++ [arrival]
  if st.wanna_next_index = arrival.1.index then
    let sorted := List.insertionSort chunkLE buf
    let p := flushScan sorted st.wanna_next_index
    let to_clear := p.1
    let buf1 := if to_clear.isEmpty then sorted else sorted.drop to_clear.length
    let lastChunk := p.2.2.getD arrival.1
    let tokens := st.translated_tokens_count + lastChunk.tokens_count
    (⟨buf1, p.2.1, tokens⟩, to_clear.flatten,
      (tokens : ℚ) / (total_tokens_count : ℚ))
  else
    let tokens := st.translated_tokens_count + arrival.1.tokens_count
    (⟨buf, st.wanna_next_index, tokens⟩, [],
      (tokens : ℚ) / (total_tokens_count : ℚ))

/-- The arrival loop of `_sort_translated_texts_by_chunk`, collecting the
emitted texts and the sequence of reported progress values. -/
def runSort (total_tokens_count : Nat) (st : SortState) :
    List (Chunk × List Text) → List Text × List ℚ
  | [] => ([], [])
  | a :: rest =>
    let s := sortStep total_tokens_count st a
    let r := runSort total_tokens_count s.1 rest
    (s.2.1 ++ r.1, s.2.2 :: r.2)

/-- Function `_sort_translated_texts_by_chunk` of `translation.py`, as a function of
the (arrival-ordered) completion list; returns the emitted fragment texts
and the reported progress values. -/
def sort_translated_texts_by_chunk (target : List (Chunk × List Text))
    (total_tokens_count : Nat) : List Text × List ℚ :=
  runSort total_tokens_count ⟨[], 0, 0⟩ target

/-! ## Splitter: `split_into_chunks` (`splitter.py`)

The external segmentation package `resource_segmentation` supplies the
`Resource`/`Segment` data and the `split` function; only the data shapes the
splitter reads are modelled here. -/

/-- Modelled from the spec: a `Resource` of the external segmentation
package, carrying a token weight (`count`), incision annotations and the
fragment index as `payload` (`resource_segmentation` is an external
collaborator; the splitter reads `count` and `payload`). -/
structure Resource where
  count : Nat
  start_incision : Incision := Incision.unset
  end_incision : Incision := Incision.unset
  payload : Nat
deriving DecidableEq, Repr

/-- Modelled from the spec: an item of a group part, either a single
resource or a previously-built segment containing resources. -/
inductive GroupItem where
  | res (r : Resource)
  | seg (resources : List Resource)
deriving DecidableEq, Repr

/-- Modelled from the spec: a group produced by the external `split`
primitive — body plus optional head/tail context parts and the context
token budgets. -/
structure Group where
  head : List GroupItem
  body : List GroupItem
  tail : List GroupItem
  head_remain_count : Nat
  tail_remain_count : Nat
deriving DecidableEq, Repr

/-- Function `_iter_group_part` of `splitter.py`: flatten nested segments
into their constituent resources. -/
def iterGroupPart (target : List GroupItem) : List Resource :=
  target.flatMap (fun item =>
    match item with
    | .res r => [r]
    | .seg resources => resources)

/-- The resource loop of `_group_part` (`splitter.py`), with the running
`start_index`, `previous_index` and `tokens_count`; the `assert` statements
become `none`. -/
def groupPartLoop : List Resource → Option Nat → Nat → Nat → Option (Nat × Nat × Nat)
  | [], none, _, _ => none
  | [], some s, prev, tok => some (s, prev, tok)
  | r :: rest, none, _, tok =>
    groupPartLoop rest (some r.payload) r.payload (tok + r.count)
  | r :: rest, some s, prev, tok =>
    if r.payload = prev + 1 then
      groupPartLoop rest (some s) r.payload (tok + r.count)
    else
      none

/-- Function `_group_part` of `splitter.py`: first payload, last payload and
total token count of a part, requiring consecutive payloads. -/
def group_part (target : List GroupItem) : Option (Nat × Nat × Nat) :=
  groupPartLoop (iterGroupPart target) none 0 0

/-- The per-group body of `split_into_chunks` (`splitter.py`): derive the
`ChunkRange` index bounds from the group parts, with the contiguity
`assert` statements as `none`. -/
def chunkRangeOfGroup (index : Nat) (g : Group) : Option ChunkRange := do
  let bodyPart ← group_part g.body
  let body_index := bodyPart.1
  let body_end_index := bodyPart.2.1
  let head_index ←
    if g.head.isEmpty then
      pure body_index
    else do
      let headPart ← group_part g.head
      if headPart.2.1 + 1 = body_index then pure headPart.1 else none
  let tailData ←
    if g.tail.isEmpty then
      pure (body_end_index + 1, body_end_index + 1 - head_index)
    else do
      let tailPart ← group_part g.tail
      if body_end_index + 1 = tailPart.1 then
        pure (tailPart.1, tailPart.2.1 - head_index + 1)
      else
        none
  pure {
    index := index
    head_remain_tokens := g.head_remain_count
    tail_remain_tokens := g.tail_remain_count
    head_index := head_index
    body_index := body_index
    tail_index := tailData.1
    fragments_count := tailData.2
    tokens_count := bodyPart.2.2 }

/-- Function `split_into_chunks` of `splitter.py`, as a function of the group
list returned by the external `split` primitive (enumerated in order). -/
def split_into_chunks (groups : List Group) : Option (List ChunkRange) :=
  groups.enum.mapM (fun p => chunkRangeOfGroup p.1 p.2)

/-! ## TranslationCache and `_translate_chunk` (`translation.py`) -/

/-- Modelled from the spec: the translation cache (`store.py` is not among
the sources) is a content-addressed map `hash → list of translated strings`;
modelled as an association list where a later `put` shadows earlier
entries. -/
abbrev Store := List (List Nat × List Text)

/-- Modelled from the spec: cache lookup `Store.get`. -/
def storeGet (s : Store) (h : List Nat) : Option (List Text) :=
  (s.find? (fun e => e.1 == h)).map (fun e => e.2)

/-- Modelled from the spec: cache store `Store.put`; overwrites any previous
entry for the same hash. -/
def storePut (s : Store) (h : List Nat) (v : List Text) : Store :=
  (h, v) :: s

/-- Result of one `_translate_chunk` call: the body-aligned translated
texts, the cache afterwards, and whether the model protocol was invoked /
a length-mismatch warning was printed. -/
structure TranslateResult where
  texts : List Text
  store : Option Store
  model_called : Bool
  warned : Bool
deriving Repr

/-- Function `_translate_chunk` of `translation.py`.  The model protocol
`_translate_texts` (network-bound LLM requests) and the whitespace
normalization `clean_spaces` (`utils.py`, not among the sources; per the
spec, "post-process each with whitespace normalization") are external
inputs. -/
def translate_chunk (cleanSpaces : Text → Text)
    (translateTexts : List Text → List Text)
    (store : Option Store) (chunk : Chunk) : TranslateResult :=
  let source_texts := chunk.head ++ chunk.body ++ chunk.tail
  let cached : Option (List Text) := store.bind (fun s => storeGet s chunk.hash)
  let mismatch : Bool :=
    match cached with
    | some v => source_texts.length != v.length
    | none => false
  match (if mismatch then none else cached) with
  | some v =>
    { texts := (v.drop chunk.head.length).take chunk.body.length
      store := store
      model_called := false
      warned := mismatch }
  | none =>
    let v := (translateTexts source_texts).map cleanSpaces
    { texts := (v.drop chunk.head.length).take chunk.body.length
      store := store.map (fun s => storePut s chunk.hash v)
      model_called := true
      warned := mismatch }

/-! ## Response parsing: `_parse_translated_response` (`translation.py`) -/

/-- A child element of the XML response root: its text content (possibly
absent) and its `id` attribute, modelled as an integer when present (the
claim concerns numeric ids; `int(id)` in the source). -/
structure RespChild where
  text : Option Text
  id : Option Int
deriving DecidableEq, Repr

/-- Whitespace bytes removed by Python `str.strip()`. -/
def isSpaceByte (b : Nat) : Bool :=
  b = 32 || b = 9 || b = 10 || b = 13 || b = 11 || b = 12

/-- Python `str.strip()` on a byte-list text. -/
def stripText (t : Text) : Text :=
  ((t.dropWhile isSpaceByte).reverse.dropWhile isSpaceByte).reverse

/-- The child loop of `_parse_translated_response` (`translation.py`):
children lacking text or an `id` attribute are skipped; an id outside
`[1, sources_count]` raises `ValueError("invalid fragment id: ...")`;
otherwise the stripped text is recorded at position `id - 1`. -/
def parseLoop : List RespChild → List (Option Text) → Except String (List (Option Text))
  | [], fragments => .ok fragments
  | child :: rest, fragments =>
    match child.text with
    | none => parseLoop rest fragments
    | some txt =>
      match child.id with
      | none => parseLoop rest fragments
      | some id =>
        let index : Int := id - 1
        if index < 0 || (fragments.length : Int) ≤ index then
          .error ("invalid fragment id: " ++ toString id)
        else
          parseLoop rest (fragments.set index.toNat (some (stripText txt)))

/-- Function `_parse_translated_response` of `translation.py`: run the child
loop over `[None] * sources_count` and replace never-populated (or falsy)
positions by the empty string. -/
def parse_translated_response (children : List RespChild) (sources_count : Nat) :
    Except String (List Text) :=
  (parseLoop children (List.replicate sources_count none)).map
    (fun fragments => fragments.map (fun f => f.getD []))

/-! ## Theorems -/

/-- Unfolding of the hash message for the three-part text list. -/
lemma hash_texts_list_three (lang : Language) (h b t : List Text) :
    hash_texts_list lang [h, b, t] =
      lang ++ (h ++ b ++ t).flatMap (fun x => 0 :: x) := by
  simp [hash_texts_list]

/-- Replacing one text by a different one changes the null-byte-separated
serialization. -/
lemma flatMapSep_set_ne (l : List Text) (i : Nat) (x : Text)
    (hi : i < l.length) (hx : x ≠ l.getD i []) :
    (l.set i x).flatMap (fun t => 0 :: t) ≠ l.flatMap (fun t => 0 :: t) := by
  induction l generalizing i with
  | nil => simp at hi
  | cons a rest ih =>
    cases i with
    | zero =>
      simp only [List.getD_cons_zero] at hx
      simp only [List.set_cons_zero, List.flatMap_cons]
      intro heq
      exact hx (List.cons.inj (List.append_cancel_right heq)).2
    | succ n =>
      simp only [List.getD_cons_succ] at hx
      simp only [List.set_cons_succ, List.flatMap_cons]
      intro heq
      exact ih n (by simpa using hi) hx (List.append_cancel_left heq)

/-- C5: chunk hashing is deterministic and content-sensitive.  The modelled
hash is exactly the serialized digest input — the target-language identifier
followed by every text of head, body and tail in order, each preceded by a
null byte — so identical `(language, head, body, tail)` inputs give
identical hashes by functionality, while changing the target language, or
any single one of the texts (position `i` of the concatenated text list),
changes the hash. -/
theorem hash_deterministic_and_content_sensitive :
    (∀ (lang : Language) (h b t : List Text),
      hash_texts_list lang [h, b, t] =
        lang ++ (h ++ b ++ t).flatMap (fun x => 0 :: x)) ∧
    (∀ (lang lang' : Language) (h b t : List Text), lang ≠ lang' →
      hash_texts_list lang [h, b, t] ≠ hash_texts_list lang' [h, b, t]) ∧
    (∀ (lang : Language) (h b t h' b' t' : List Text) (i : Nat) (x : Text),
      i < (h ++ b ++ t).length → x ≠ (h ++ b ++ t).getD i [] →
      h' ++ b' ++ t' = (h ++ b ++ t).set i x →
      hash_texts_list lang [h, b, t] ≠ hash_texts_list lang [h', b', t']) := by
  refine ⟨hash_texts_list_three, ?_, ?_⟩
  · intro lang lang' h b t hne heq
    rw [hash_texts_list_three, hash_texts_list_three] at heq
    exact hne (List.append_cancel_right heq)
  · intro lang h b t h' b' t' i x hi hx hset heq
    rw [hash_texts_list_three, hash_texts_list_three, hset] at heq
    exact flatMapSep_set_ne (h ++ b ++ t) i x hi hx
      (List.append_cancel_left heq).symm

/-- Witness for `hash_deterministic_and_content_sensitive` at concrete
inputs: distinct languages give distinct hashes; changing the single body
text changes the hash. -/
theorem hash_deterministic_and_content_sensitive_witness :
    hash_texts_list [1] [[[5]], [], []] ≠ hash_texts_list [2] [[[5]], [], []] ∧
    hash_texts_list [9] [[[5]], [[6]], []] ≠ hash_texts_list [9] [[[5]], [[7]], []] :=
  ⟨hash_deterministic_and_content_sensitive.2.1 [1] [2] [[5]] [] [] (by decide),
   hash_deterministic_and_content_sensitive.2.2 [9] [[5]] [[6]] [] [[5]] [[7]] []
     1 [7] (by decide) (by decide) (by decide)⟩

/-- C3: evaluation of `_crop_extra_texts` at the failing input.  With a head
crop (`crop_left = true`), a zero token budget and one two-token text, the
Python slice `tokens[-0:]` keeps the entire text, so two tokens are kept
where the claim requires exactly zero. -/
theorem crop_head_zero_budget_keeps_whole_text :
    crop_extra_texts id id [[7, 8]] true 0 = [[7, 8]] := by rfl

/-- C2: evaluation of `_sort_translated_texts_by_chunk` at the failing
input.  Three chunks with token weights `1, 1, 4` (indices `0, 1, 2`, total
`6`) arriving in order `[2, 0, 1]` produce the progress reports
`[2/3, 4/3, 2]`: the flush loop's `for chunk, ... in buffer` rebinds the
Python variable `chunk`, so the weight of the last buffered chunk walked
(index 2, weight 4) is added on every later arrival instead of the arriving
chunk's weight — the reported value `4/3` already exceeds `1.0`. -/
theorem sort_progress_exceeds_one :
    (sort_translated_texts_by_chunk
      [(⟨2, [], [], [], [], 4⟩, [[2]]),
       (⟨0, [], [], [], [], 1⟩, [[0]]),
       (⟨1, [], [], [], [], 1⟩, [[1]])] 6).2 = [2/3, 4/3, 2] ∧
    (1 : ℚ) < 4/3 := by
  constructor
  · norm_num [sort_translated_texts_by_chunk, runSort, sortStep, flushScan,
      List.insertionSort, List.orderedInsert, chunkLE]
  · norm_num

/-! ## C10 / C4: the hash ignores the context token budgets -/

/-- Two chunk ranges that agree on everything except the head/tail context
token budgets (same fragment window, same index, same token weight). -/
def eqExceptRemain (r r' : ChunkRange) : Prop :=
  r.index = r'.index ∧ r.head_index = r'.head_index ∧
  r.body_index = r'.body_index ∧ r.tail_index = r'.tail_index ∧
  r.fragments_count = r'.fragments_count ∧ r.tokens_count = r'.tokens_count

instance (r r' : ChunkRange) : Decidable (eqExceptRemain r r') :=
  inferInstanceAs (Decidable (_ ∧ _ ∧ _ ∧ _ ∧ _ ∧ _))

/-- In-flight accumulator entries related by `eqExceptRemain` on the range
and carrying equal accumulated texts. -/
def entryRel (e e' : ChunkRange × List Text) : Prop :=
  eqExceptRemain e.1 e'.1 ∧ e.2 = e'.2

lemma matchIdx_eqExceptRemain {r r' : ChunkRange} (h : eqExceptRemain r r')
    (i : Nat) : r.matchIdx i = r'.matchIdx i := by
  obtain ⟨-, h2, -, -, h5, -⟩ := h
  simp [ChunkRange.matchIdx, h2, h5]

lemma forall₂_filter_congr {α β : Type} {R : α → β → Prop} {p : α → Bool}
    {q : β → Bool} (hpq : ∀ a b, R a b → p a = q b) :
    ∀ {l : List α} {l' : List β}, List.Forall₂ R l l' →
      List.Forall₂ R (l.filter p) (l'.filter q) := by
  intro l l' hll
  induction hll with
  | nil => exact List.Forall₂.nil
  | @cons a b l₁ l₂ hab _ ih =>
    rw [List.filter_cons, List.filter_cons, ← hpq _ _ hab]
    by_cases hp : p a
    · rw [if_pos hp, if_pos hp]
      exact List.Forall₂.cons hab ih
    · rw [if_neg (by simpa using hp), if_neg (by simpa using hp)]
      exact ih

lemma forall₂_map_of_rel {α β γ δ : Type} {R : α → β → Prop}
    {S : γ → δ → Prop} {f : α → γ} {g : β → δ}
    (hfg : ∀ a b, R a b → S (f a) (g b)) :
    ∀ {l : List α} {l' : List β}, List.Forall₂ R l l' →
      List.Forall₂ S (l.map f) (l'.map g) := by
  intro l l' hll
  induction hll with
  | nil => exact List.Forall₂.nil
  | cons hab _ ih => exact List.Forall₂.cons (hfg _ _ hab) ih

lemma map_eq_of_forall₂ {α β γ : Type} {R : α → β → Prop}
    {f : α → γ} {g : β → γ} (hfg : ∀ a b, R a b → f a = g b) :
    ∀ {l : List α} {l' : List β}, List.Forall₂ R l l' → l.map f = l'.map g := by
  intro l l' hll
  induction hll with
  | nil => rfl
  | cons hab _ ih => simpa [hfg _ _ hab] using ih

/-- Relatedness of `pullMatching` results when the pending states are
related by `eqExceptRemain`. -/
lemma pullMatching_rel (idx : Nat) :
    ∀ (o o' : Option ChunkRange) (rs rs' : List ChunkRange),
      Option.Rel eqExceptRemain o o' → List.Forall₂ eqExceptRemain rs rs' →
      List.Forall₂ eqExceptRemain (pullMatching idx o rs).1 (pullMatching idx o' rs').1 ∧
      Option.Rel eqExceptRemain (pullMatching idx o rs).2.1 (pullMatching idx o' rs').2.1 ∧
      List.Forall₂ eqExceptRemain (pullMatching idx o rs).2.2 (pullMatching idx o' rs').2.2 := by
  have main : ∀ (rs rs' : List ChunkRange) (r r' : ChunkRange),
      eqExceptRemain r r' → List.Forall₂ eqExceptRemain rs rs' →
      List.Forall₂ eqExceptRemain (pullAux idx r rs).1 (pullAux idx r' rs').1 ∧
      Option.Rel eqExceptRemain (pullAux idx r rs).2.1 (pullAux idx r' rs').2.1 ∧
      List.Forall₂ eqExceptRemain (pullAux idx r rs).2.2 (pullAux idx r' rs').2.2 := by
    intro rs rs' r r' hr hrs
    induction hrs generalizing r r' with
    | nil =>
      rw [pullAux, pullAux, matchIdx_eqExceptRemain hr idx]
      by_cases hm : r'.matchIdx idx
      · simp only [hm, if_true]
        exact ⟨List.Forall₂.cons hr List.Forall₂.nil, Option.Rel.none, List.Forall₂.nil⟩
      · simp only [hm, if_false]
        exact ⟨List.Forall₂.nil, Option.Rel.some hr, List.Forall₂.nil⟩
    | @cons r2 r2' rest rest' hr2 hrest ih =>
      rw [pullAux, pullAux, matchIdx_eqExceptRemain hr idx]
      by_cases hm : r'.matchIdx idx
      · simp only [hm, if_true]
        obtain ⟨h1, h2, h3⟩ := ih r2 r2' hr2
        exact ⟨List.Forall₂.cons hr h1, h2, h3⟩
      · simp only [hm, if_false]
        exact ⟨List.Forall₂.nil, Option.Rel.some hr,
          List.Forall₂.cons hr2 hrest⟩
  intro o o' rs rs' ho hrs
  cases ho with
  | none =>
    cases hrs with
    | nil => exact ⟨List.Forall₂.nil, Option.Rel.none, List.Forall₂.nil⟩
    | cons hr hrest => exact main _ _ _ _ hr hrest
  | some hr => exact main _ _ _ _ hr hrs

/-- Relatedness of `matchLoop` outputs under `eqExceptRemain`-related range
states: the yielded (range, texts) pairs carry equal texts. -/
lemma matchLoop_rel :
    ∀ (fragments : List Fragment) (idx : Nat) (o o' : Option ChunkRange)
      (rs rs' : List ChunkRange) (m m' : List (ChunkRange × List Text)),
      Option.Rel eqExceptRemain o o' → List.Forall₂ eqExceptRemain rs rs' →
      List.Forall₂ entryRel m m' →
      List.Forall₂ entryRel (matchLoop idx fragments o rs m)
        (matchLoop idx fragments o' rs' m') := by
  intro fragments
  induction fragments with
  | nil => intro idx o o' rs rs' m m' _ _ hm; exact hm
  | cons f fs ih =>
    intro idx o o' rs rs' m m' ho hrs hm
    rw [matchLoop, matchLoop]
    obtain ⟨hpull1, hpull2, hpull3⟩ := pullMatching_rel idx o o' rs rs' ho hrs
    have hentries : List.Forall₂ entryRel
        (m ++ (pullMatching idx o rs).1.map (fun c => (c, ([] : List Text))))
        (m' ++ (pullMatching idx o' rs').1.map (fun c => (c, ([] : List Text)))) :=
      List.rel_append hm
        (forall₂_map_of_rel (fun a b hab => ⟨hab, rfl⟩) hpull1)
    refine List.rel_append ?_ (ih _ _ _ _ _ _ _ hpull2 hpull3 ?_)
    · exact forall₂_filter_congr
        (fun a b hab => by rw [matchIdx_eqExceptRemain hab.1 idx]) hentries
    · refine forall₂_map_of_rel ?_
        (forall₂_filter_congr
          (fun a b hab => by rw [matchIdx_eqExceptRemain hab.1 idx]) hentries)
      intro a b hab
      exact ⟨hab.1, by rw [hab.2]⟩

/-- C10: the chunk hash is computed over the uncropped head/body/tail
texts, before cropping to the context token budgets.  For any fragment
sequence and any two range lists that agree pointwise on everything except
`head_remain_tokens` / `tail_remain_tokens`, `match_fragments` yields
chunks with pointwise identical `(index, hash)` — in particular, two ranges
covering the same fragment window under the same target language but with
different context budgets yield chunks with identical hash (the same cache
key), even when their stored cropped head/tail lists differ. -/
theorem match_fragments_hash_ignores_remain_budgets
    (encode : Text → List Nat) (decode : List Nat → Text) (lang : Language)
    (ranges ranges' : List ChunkRange) (fragments : List Fragment)
    (h : List.Forall₂ eqExceptRemain ranges ranges') :
    (match_fragments encode decode lang ranges fragments).map
        (fun c => (c.index, c.hash)) =
      (match_fragments encode decode lang ranges' fragments).map
        (fun c => (c.index, c.hash)) := by
  have hrel : List.Forall₂ entryRel
      (match_range_and_texts ranges fragments)
      (match_range_and_texts ranges' fragments) :=
    matchLoop_rel fragments 0 none none ranges ranges' [] []
      Option.Rel.none h List.Forall₂.nil
  rw [match_fragments, match_fragments, List.map_map, List.map_map]
  refine map_eq_of_forall₂ ?_ hrel
  intro a b hab
  obtain ⟨⟨h1, h2, h3, h4, -, h6⟩, hts⟩ := hab
  simp only [Function.comp, chunkOfRangeTexts, h1, h2, h3, h4, h6, hts]

/-- Witness for `match_fragments_hash_ignores_remain_budgets`: two ranges
over the same window `[0,1) ++ [1,2)` with head budgets 1 and 2 give chunks
with the same `(index, hash)` even though the cropped heads `[[6]]` and
`[[5,6]]` differ. -/
theorem match_fragments_hash_ignores_remain_budgets_witness :
    (match_fragments id id [9]
        [⟨0, 1, 0, 0, 1, 2, 2, 3⟩] [⟨[5, 6], .unset, .unset⟩, ⟨[7], .unset, .unset⟩]).map
        (fun c => (c.index, c.hash)) =
      (match_fragments id id [9]
        [⟨0, 2, 0, 0, 1, 2, 2, 3⟩] [⟨[5, 6], .unset, .unset⟩, ⟨[7], .unset, .unset⟩]).map
        (fun c => (c.index, c.hash)) ∧
    (match_fragments id id [9]
        [⟨0, 1, 0, 0, 1, 2, 2, 3⟩] [⟨[5, 6], .unset, .unset⟩, ⟨[7], .unset, .unset⟩]).map
        (fun c => c.head) = [[[6]]] ∧
    (match_fragments id id [9]
        [⟨0, 2, 0, 0, 1, 2, 2, 3⟩] [⟨[5, 6], .unset, .unset⟩, ⟨[7], .unset, .unset⟩]).map
        (fun c => c.head) = [[[5, 6]]] :=
  ⟨match_fragments_hash_ignores_remain_budgets id id [9] _ _ _
      (List.Forall₂.cons (by decide) List.Forall₂.nil),
   by rfl, by rfl⟩

/-- Counterexample to C4 as stated: one `match_fragments` run over two
ranges covering the same window `[0,1) ++ [1,2)` with head budgets 1 and 2
yields two chunks with identical hash whose presented (cropped) head lists
differ (`[[6]]` vs `[[5,6]]`). -/
theorem chunks_equal_hash_different_presented_head :
    (match_fragments id id [9]
        [⟨0, 1, 0, 0, 1, 2, 2, 3⟩, ⟨1, 2, 0, 0, 1, 2, 2, 3⟩]
        [⟨[5, 6], .unset, .unset⟩, ⟨[7], .unset, .unset⟩]).map
        (fun c => (c.hash, c.head, c.body, c.tail)) =
      [([9, 0, 5, 6, 0, 7], [[6]], [[7]], []),
       ([9, 0, 5, 6, 0, 7], [[5, 6]], [[7]], [])] ∧
    ([[6]] : List Text) ≠ [[5, 6]] :=
  ⟨by rfl, by decide⟩

/-- Hash of a produced chunk, in terms of the whole accumulated
(uncropped) text list: the head/body/tail split is a
`take`/`drop` partition, so the hashed message is the language followed by
the null-byte-separated serialization of all accumulated texts. -/
lemma chunkOfRangeTexts_hash (encode : Text → List Nat) (decode : List Nat → Text)
    (lang : Language) (r : ChunkRange) (ts : List Text) :
    (chunkOfRangeTexts encode decode lang r ts).hash =
      lang ++ ts.flatMap (fun x => 0 :: x) := by
  show hash_texts_list lang
      [ts.take (r.body_index - r.head_index),
       (ts.drop (r.body_index - r.head_index)).take (r.tail_index - r.body_index),
       ts.drop (r.body_index - r.head_index + (r.tail_index - r.body_index))] =
    lang ++ ts.flatMap (fun x => 0 :: x)
  rw [hash_texts_list_three]
  congr 1
  have hdrop : ts.drop (r.body_index - r.head_index + (r.tail_index - r.body_index)) =
      (ts.drop (r.body_index - r.head_index)).drop (r.tail_index - r.body_index) :=
    (List.drop_drop _ _ _).symm
  rw [hdrop, List.append_assoc, List.take_append_drop, List.take_append_drop]

/-- C4 amended: for chunks built by the matcher, equal hash (under a fixed
target language) guarantees equal null-byte-serialized uncropped source
content — the accumulated `head ++ body ++ tail` texts before cropping —
not equality of the presented (cropped) head/tail lists. -/
theorem chunk_hash_determines_serialized_source
    (encode : Text → List Nat) (decode : List Nat → Text) (lang : Language)
    (r r' : ChunkRange) (ts ts' : List Text)
    (h : (chunkOfRangeTexts encode decode lang r ts).hash =
      (chunkOfRangeTexts encode decode lang r' ts').hash) :
    ts.flatMap (fun x => 0 :: x) = ts'.flatMap (fun x => 0 :: x) := by
  rw [chunkOfRangeTexts_hash, chunkOfRangeTexts_hash] at h
  exact List.append_cancel_left h

/-- Witness for `chunk_hash_determines_serialized_source` at a concrete
input (two different text lists with the same serialization). -/
theorem chunk_hash_determines_serialized_source_witness :
    ([[5], [6]] : List Text).flatMap (fun x => 0 :: x) =
      ([[5, 0, 6]] : List Text).flatMap (fun x => 0 :: x) :=
  chunk_hash_determines_serialized_source id id [9]
    ⟨0, 0, 0, 0, 0, 0, 0, 0⟩ ⟨0, 0, 0, 0, 0, 0, 0, 0⟩
    [[5], [6]] [[5, 0, 6]] (by rfl)

/-! ## C1: the emitter releases fragments in ascending chunk-index order -/

lemma drop_if_isEmpty {α β : Type} (s : List α) (tc : List β) :
    (if tc.isEmpty then s else s.drop tc.length) = s.drop tc.length := by
  cases tc <;> simp

/-- Reduction of `sortStep` when the arriving chunk is not the wanted one:
the arrival is buffered and nothing is emitted. -/
lemma sortStep_neg (total : Nat) (st : SortState) (e : Chunk × List Text)
    (h : st.wanna_next_index ≠ e.1.index) :
    sortStep total st e =
      (⟨st.buffer ++ [e], st.wanna_next_index,
        st.translated_tokens_count + e.1.tokens_count⟩, [],
       ((st.translated_tokens_count + e.1.tokens_count : Nat) : ℚ) / (total : ℚ)) := by
  simp [sortStep, h]

/-- Reduction of the state and emission of `sortStep` when the arriving
chunk is the wanted one: the sorted buffer is scanned and flushed. -/
lemma sortStep_pos (total : Nat) (st : SortState) (e : Chunk × List Text)
    (h : st.wanna_next_index = e.1.index) :
    (sortStep total st e).1.buffer =
      (List.insertionSort chunkLE (st.buffer ++ [e])).drop
        ((flushScan (List.insertionSort chunkLE (st.buffer ++ [e]))
          st.wanna_next_index).1).length ∧
    (sortStep total st e).1.wanna_next_index =
      (flushScan (List.insertionSort chunkLE (st.buffer ++ [e]))
        st.wanna_next_index).2.1 ∧
    (sortStep total st e).2.1 =
      ((flushScan (List.insertionSort chunkLE (st.buffer ++ [e]))
        st.wanna_next_index).1).flatten := by
  refine ⟨?_, ?_, ?_⟩
  · simp [sortStep, h]
    intro h0
    simp [h0]
  · simp [sortStep, h]
  · simp [sortStep, h]

/-- A buffer sorted by chunk index with pairwise-distinct indices is
strictly sorted on indices. -/
lemma pairwise_lt_of_sorted_nodup {s : List (Chunk × List Text)}
    (hs : List.Sorted chunkLE s)
    (hn : (s.map (fun e => e.1.index)).Nodup) :
    List.Pairwise (fun a b => a.1.index < b.1.index) s := by
  rw [List.Nodup, List.pairwise_map] at hn
  exact (List.Pairwise.and hs hn).imp
    (fun hab => lt_of_le_of_ne hab.1 hab.2)

/-- Behavior of the flush loop on a strictly index-sorted buffer whose
indices are all at least the cursor: the loop splits the buffer into the
maximal prefix of entries with consecutive indices starting at the cursor —
whose texts it collects in order while advancing the cursor past them — and
a remainder whose indices all exceed the advanced cursor. -/
lemma flushScan_spec :
    ∀ (s : List (Chunk × List Text)) (w : Nat),
      List.Pairwise (fun a b => a.1.index < b.1.index) s →
      (∀ e ∈ s, w ≤ e.1.index) →
      ∃ run rest₂,
        s = run ++ rest₂ ∧
        run.map (fun e => e.1.index) = List.range' w run.length ∧
        (flushScan s w).1 = run.map (fun e => e.2) ∧
        (flushScan s w).2.1 = w + run.length ∧
        (∀ e ∈ rest₂, w + run.length < e.1.index) := by
  intro s
  induction s with
  | nil =>
    intro w _ _
    exact ⟨[], [], rfl, rfl, rfl, by simp [flushScan], by simp⟩
  | cons a s ih =>
    intro w hpw hge
    by_cases hlt : w < a.1.index
    · refine ⟨[], a :: s, rfl, rfl, ?_, ?_, ?_⟩
      · simp [flushScan, hlt]
      · simp [flushScan, hlt]
      · intro x hx
        simp only [List.length_nil, Nat.add_zero]
        rcases List.mem_cons.mp hx with rfl | hmem
        · exact hlt
        · have := (List.pairwise_cons.mp hpw).1 x hmem
          omega
    · have heq : a.1.index = w :=
        le_antisymm (not_lt.mp hlt) (hge a (by simp))
      obtain ⟨run, rest₂, hsplit, hrunIdx, hclear, hw, hrest⟩ :=
        ih (w + 1) (List.pairwise_cons.mp hpw).2
          (fun x hx => by
            have := (List.pairwise_cons.mp hpw).1 x hx
            omega)
      have hred : flushScan (a :: s) w =
          (a.2 :: (flushScan s (w + 1)).1, (flushScan s (w + 1)).2.1,
            some ((flushScan s (w + 1)).2.2.getD a.1)) := by
        simp [flushScan, heq]
      refine ⟨a :: run, rest₂, by simp [hsplit], ?_, ?_, ?_, ?_⟩
      · simp [List.range'_succ, heq, hrunIdx]
      · rw [hred]
        simp [hclear]
      · rw [hred]
        simp only [hw, List.length_cons]
        omega
      · intro x hx
        have := hrest x hx
        simp only [List.length_cons]
        omega

/-- Flattening the collected texts of a consecutive run equals the
ascending-order concatenation of the per-index text lists. -/
lemma flatten_run_texts (f : Nat → List Text) :
    ∀ (run : List (Chunk × List Text)) (w : Nat),
      run.map (fun e => e.1.index) = List.range' w run.length →
      (∀ e ∈ run, e.2 = f e.1.index) →
      (run.map (fun e => e.2)).flatten = (List.range' w run.length).flatMap f := by
  intro run
  induction run with
  | nil => intro w _ _; rfl
  | cons a run ih =>
    intro w hidx htexts
    simp only [List.length_cons, List.range'_succ, List.map_cons,
      List.cons.injEq] at hidx
    have h1 : a.1.index = w := hidx.1
    have h2 := ih (w + 1) hidx.2 (fun x hx => htexts x (List.mem_cons_of_mem a hx))
    simp only [List.length_cons, List.range'_succ, List.map_cons,
      List.flatten_cons, List.flatMap_cons, h2]
    rw [htexts a (by simp), h1]

/-- Invariant induction for the arrival loop: if `A` is the list of chunk
indices already processed, the cursor is the least index not in `A`, the
buffer holds exactly the arrived indices beyond the cursor, and the
remaining arrivals complete `A` to a permutation of `0..n-1`, then the loop
emits exactly the per-index text lists of `cursor, cursor+1, ..., n-1` in
ascending order. -/
lemma runSort_emits (f : Nat → List Text) (n total : Nat) :
    ∀ (l : List (Chunk × List Text)) (A : List Nat) (st : SortState),
      (A ++ l.map (fun x => x.1.index)).Perm (List.range n) →
      (∀ x ∈ l, x.2 = f x.1.index) →
      (∀ j, j < st.wanna_next_index → j ∈ A) →
      st.wanna_next_index ∉ A →
      (∀ x ∈ st.buffer, x.2 = f x.1.index ∧ x.1.index ∈ A ∧
        st.wanna_next_index < x.1.index) →
      (∀ j ∈ A, st.wanna_next_index < j →
        j ∈ st.buffer.map (fun x => x.1.index)) →
      ((st.buffer.map (fun x => x.1.index)).Nodup) →
      (runSort total st l).1 =
        (List.range' st.wanna_next_index (n - st.wanna_next_index)).flatMap f := by
  intro l
  induction l with
  | nil =>
    intro A st hA _ _ hwna _ _ _
    have hn : n ≤ st.wanna_next_index := by
      by_contra hlt
      push_neg at hlt
      have : st.wanna_next_index ∈ A ++ ([] : List (Chunk × List Text)).map
          (fun x => x.1.index) := hA.mem_iff.mpr (List.mem_range.mpr hlt)
      simp at this
      exact hwna this
    have h0 : n - st.wanna_next_index = 0 := by omega
    simp [runSort, h0]
  | cons e rest ih =>
    intro A st hA htexts hlow hwna hbuf hcomp hnodup
    have hA' : (A ++ e.1.index :: rest.map (fun x => x.1.index)).Perm
        (List.range n) := by simpa using hA
    have hnodupAll : (A ++ e.1.index :: rest.map (fun x => x.1.index)).Nodup :=
      hA'.nodup_iff.mpr (List.nodup_range n)
    have hkA : e.1.index ∉ A := by
      rcases List.nodup_append.mp hnodupAll with ⟨-, -, hdisj⟩
      intro hmem
      exact hdisj hmem (by simp)
    have hkrest : e.1.index ∉ rest.map (fun x => x.1.index) := by
      rcases List.nodup_append.mp hnodupAll with ⟨-, hnd, -⟩
      exact (List.nodup_cons.mp hnd).1
    have hkn : e.1.index < n :=
      List.mem_range.mp (hA'.mem_iff.mp (by simp))
    have hAsub : ∀ j ∈ A, j < n := fun j hj =>
      List.mem_range.mp (hA'.mem_iff.mp (List.mem_append_left _ hj))
    have hpermA1 : ((A ++ [e.1.index]) ++ rest.map (fun x => x.1.index)).Perm
        (List.range n) := by
      rw [List.append_assoc]
      simpa using hA'
    have hkge : st.wanna_next_index ≤ e.1.index := by
      by_contra hlt
      push_neg at hlt
      exact hkA (hlow e.1.index hlt)
    have hrunStep : (runSort total st (e :: rest)).1 =
        (sortStep total st e).2.1 ++ (runSort total (sortStep total st e).1 rest).1 := by
      simp [runSort]
    have hbufTexts : ∀ x ∈ st.buffer ++ [e], x.2 = f x.1.index := by
      intro x hx
      rcases List.mem_append.mp hx with hx | hx
      · exact (hbuf x hx).1
      · rw [List.mem_singleton.mp hx]
        exact htexts e (by simp)
    have hbufIdxA : ∀ x ∈ st.buffer ++ [e], x.1.index ∈ A ++ [e.1.index] := by
      intro x hx
      rcases List.mem_append.mp hx with hx | hx
      · exact List.mem_append_left _ (hbuf x hx).2.1
      · rw [List.mem_singleton.mp hx]
        simp
    have hbufGe : ∀ x ∈ st.buffer ++ [e], st.wanna_next_index ≤ x.1.index := by
      intro x hx
      rcases List.mem_append.mp hx with hx | hx
      · exact Nat.le_of_lt (hbuf x hx).2.2
      · rw [List.mem_singleton.mp hx]
        exact hkge
    have hbufNodup : ((st.buffer ++ [e]).map (fun x => x.1.index)).Nodup := by
      rw [List.map_append]
      refine List.nodup_append.mpr ⟨hnodup, by simp, ?_⟩
      intro z hz hz'
      simp only [List.map_cons, List.map_nil, List.mem_singleton] at hz'
      obtain ⟨x, hx, hxz⟩ := List.mem_map.mp hz
      have hxA : x.1.index ∈ A := (hbuf x hx).2.1
      rw [hxz, hz'] at hxA
      exact hkA hxA
    by_cases hflush : st.wanna_next_index = e.1.index
    · -- flush case
      obtain ⟨hb, hwn, hem⟩ := sortStep_pos total st e hflush
      have hpermbuf : (List.insertionSort chunkLE (st.buffer ++ [e])).Perm
          (st.buffer ++ [e]) := List.perm_insertionSort chunkLE _
      have hsort : List.Sorted chunkLE (List.insertionSort chunkLE (st.buffer ++ [e])) :=
        List.sorted_insertionSort chunkLE _
      have hsortedNodup :
          ((List.insertionSort chunkLE (st.buffer ++ [e])).map
            (fun x => x.1.index)).Nodup :=
        ((hpermbuf.map (fun x => x.1.index)).nodup_iff).mpr hbufNodup
      have hstrict := pairwise_lt_of_sorted_nodup hsort hsortedNodup
      have hsortedGe : ∀ x ∈ List.insertionSort chunkLE (st.buffer ++ [e]),
          st.wanna_next_index ≤ x.1.index :=
        fun x hx => hbufGe x (hpermbuf.mem_iff.mp hx)
      obtain ⟨run, rest₂, hsplit, hrunIdx, hclear, hw, hrest⟩ :=
        flushScan_spec _ st.wanna_next_index hstrict hsortedGe
      have hrunmem : ∀ x ∈ run, x ∈ st.buffer ++ [e] := fun x hx =>
        hpermbuf.mem_iff.mp (hsplit ▸ List.mem_append_left _ hx)
      have hrestmem : ∀ x ∈ rest₂, x ∈ st.buffer ++ [e] := fun x hx =>
        hpermbuf.mem_iff.mp (hsplit ▸ List.mem_append_right _ hx)
      have hksorted : e.1.index ∈
          (List.insertionSort chunkLE (st.buffer ++ [e])).map (fun x => x.1.index) := by
        refine ((hpermbuf.map (fun x => x.1.index)).mem_iff).mpr ?_
        simp
      have hrunpos : 0 < run.length := by
        by_contra h0
        push_neg at h0
        have hrun0 : run = [] := List.length_eq_zero.mp (Nat.le_zero.mp h0)
        rw [hsplit, hrun0, List.nil_append] at hksorted
        obtain ⟨x, hx, hxk⟩ := List.mem_map.mp hksorted
        have hgt := hrest x hx
        rw [hrun0] at hgt
        simp at hgt
        omega
      -- every index in the flushed run is a member of the processed set
      have hrunIdxMem : ∀ j ∈ List.range' st.wanna_next_index run.length,
          j ∈ A ++ [e.1.index] := by
        intro j hj
        rw [← hrunIdx] at hj
        obtain ⟨x, hx, hxj⟩ := List.mem_map.mp hj
        exact hxj ▸ hbufIdxA x (hrunmem x hx)
      have hw'le : st.wanna_next_index + run.length ≤ n := by
        have hmem : st.wanna_next_index + (run.length - 1) ∈
            List.range' st.wanna_next_index run.length :=
          List.mem_range'_1.mpr ⟨Nat.le_add_right _ _, by omega⟩
        have hmem2 := hrunIdxMem _ hmem
        rcases List.mem_append.mp hmem2 with h | h
        · have := hAsub _ h
          omega
        · have := List.mem_singleton.mp h
          omega
      have hbuf1 : (sortStep total st e).1.buffer = rest₂ := by
        rw [hb, hclear, List.length_map, hsplit, List.drop_left]
      have hwanna1 : (sortStep total st e).1.wanna_next_index =
          st.wanna_next_index + run.length := by rw [hwn, hw]
      have hemit : (sortStep total st e).2.1 =
          (List.range' st.wanna_next_index run.length).flatMap f := by
        rw [hem, hclear]
        exact flatten_run_texts f run st.wanna_next_index hrunIdx
          (fun x hx => hbufTexts x (hrunmem x hx))
      have hih := ih (A ++ [e.1.index]) (sortStep total st e).1 hpermA1
        (fun x hx => htexts x (List.mem_cons_of_mem e hx)) ?_ ?_ ?_ ?_ ?_
      · rw [hrunStep, hemit, hih, hwanna1, ← List.flatMap_append]
        congr 1
        have happ := List.range'_append st.wanna_next_index run.length
          (n - (st.wanna_next_index + run.length)) 1
        simp only [one_mul] at happ
        rw [happ]
        congr 1
        omega
      · rw [hwanna1]
        intro j hj
        by_cases hjw : j < st.wanna_next_index
        · exact List.mem_append_left _ (hlow j hjw)
        · exact hrunIdxMem j (List.mem_range'_1.mpr ⟨by omega, by omega⟩)
      · rw [hwanna1]
        intro hmem
        rcases List.mem_append.mp hmem with h | h
        · have hmem2 := hcomp _ h (by omega)
          have hmem3 : st.wanna_next_index + run.length ∈
              (st.buffer ++ [e]).map (fun x => x.1.index) := by
            rw [List.map_append]
            exact List.mem_append_left _ hmem2
          have hmem4 : st.wanna_next_index + run.length ∈
              (List.insertionSort chunkLE (st.buffer ++ [e])).map
                (fun x => x.1.index) :=
            ((hpermbuf.map (fun x => x.1.index)).mem_iff).mpr hmem3
          rw [hsplit, List.map_append, List.mem_append] at hmem4
          rcases hmem4 with h4 | h4
          · rw [hrunIdx] at h4
            have := List.mem_range'_1.mp h4
            omega
          · obtain ⟨x, hx, hxe⟩ := List.mem_map.mp h4
            have := hrest x hx
            omega
        · have := List.mem_singleton.mp h
          omega
      · rw [hbuf1, hwanna1]
        intro x hx
        exact ⟨hbufTexts x (hrestmem x hx), hbufIdxA x (hrestmem x hx),
          hrest x hx⟩
      · rw [hbuf1, hwanna1]
        intro j hj hgt
        have hjA : j ∈ A := by
          rcases List.mem_append.mp hj with h | h
          · exact h
          · exfalso
            have := List.mem_singleton.mp h
            omega
        have hmem2 := hcomp j hjA (by omega)
        have hmem3 : j ∈ (st.buffer ++ [e]).map (fun x => x.1.index) := by
          rw [List.map_append]
          exact List.mem_append_left _ hmem2
        have hmem4 : j ∈
            (List.insertionSort chunkLE (st.buffer ++ [e])).map
              (fun x => x.1.index) :=
          ((hpermbuf.map (fun x => x.1.index)).mem_iff).mpr hmem3
        rw [hsplit, List.map_append, List.mem_append] at hmem4
        rcases hmem4 with h4 | h4
        · rw [hrunIdx] at h4
          have := List.mem_range'_1.mp h4
          omega
        · exact h4
      · rw [hbuf1]
        exact List.Nodup.sublist
          (List.Sublist.map _ (List.sublist_append_right run rest₂))
          (hsplit ▸ hsortedNodup)
    · -- no flush: the arrival is buffered
      have hkgt : st.wanna_next_index < e.1.index := lt_of_le_of_ne hkge hflush
      have hih := ih (A ++ [e.1.index])
        ⟨st.buffer ++ [e], st.wanna_next_index,
          st.translated_tokens_count + e.1.tokens_count⟩ hpermA1
        (fun x hx => htexts x (List.mem_cons_of_mem e hx)) ?_ ?_ ?_ ?_ ?_
      · rw [hrunStep, sortStep_neg total st e hflush]
        simpa using hih
      · exact fun j hj => List.mem_append_left _ (hlow j hj)
      · intro hmem
        rcases List.mem_append.mp hmem with h | h
        · exact hwna h
        · exact hflush (List.mem_singleton.mp h)
      · intro x hx
        refine ⟨hbufTexts x hx, hbufIdxA x hx, ?_⟩
        rcases List.mem_append.mp hx with h | h
        · exact (hbuf x h).2.2
        · rw [List.mem_singleton.mp h]
          exact hkgt
      · intro j hj hgt
        rw [List.map_append]
        rcases List.mem_append.mp hj with h | h
        · exact List.mem_append_left _ (hcomp j h hgt)
        · refine List.mem_append_right _ ?_
          simp [List.mem_singleton.mp h]
      · exact hbufNodup

/-- C1: for every completion sequence whose chunk indices are a permutation
of `0..n-1` and whose texts are determined by the chunk index,
`_sort_translated_texts_by_chunk` emits exactly the concatenation of the
per-chunk text lists in ascending chunk-index order, regardless of the
arrival order — in particular any two arrival orders (such as `[2,0,1]` and
`[0,1,2]`) produce the same output sequence. -/
theorem sort_emits_in_ascending_index_order
    (n total : Nat) (f : Nat → List Text) (target : List (Chunk × List Text))
    (hperm : (target.map (fun x => x.1.index)).Perm (List.range n))
    (htexts : ∀ x ∈ target, x.2 = f x.1.index) :
    (sort_translated_texts_by_chunk target total).1 =
      (List.range n).flatMap f := by
  have h := runSort_emits f n total target [] ⟨[], 0, 0⟩ (by simpa using hperm)
    htexts (by simp) (by simp) (by simp) (by simp) (by simp)
  simpa [sort_translated_texts_by_chunk, List.range_eq_range'] using h

/-- Witness for `sort_emits_in_ascending_index_order`: completions arriving
in index order `[2, 0, 1]` are emitted as the index-ascending concatenation
`[[10], [11], [12]]`. -/
theorem sort_emits_in_ascending_index_order_witness :
    (sort_translated_texts_by_chunk
      [(⟨2, [], [], [], [], 1⟩, [[12]]),
       (⟨0, [], [], [], [], 1⟩, [[10]]),
       (⟨1, [], [], [], [], 1⟩, [[11]])] 3).1 = [[10], [11], [12]] := by
  have h := sort_emits_in_ascending_index_order 3 3 (fun i => [[10 + i]])
    [(⟨2, [], [], [], [], 1⟩, [[12]]),
     (⟨0, [], [], [], [], 1⟩, [[10]]),
     (⟨1, [], [], [], [], 1⟩, [[11]])] (by decide) (by decide)
  rw [h]
  rfl

/-! ## C7: cache length validation in `_translate_chunk` -/

/-- C7: cache entries of the wrong length are treated as absent.  With a
cache present: a hit whose length equals the chunk's source-text count
`len(head) + len(body) + len(tail)` is used as is — no model request, no
warning, cache unchanged; a hit whose length differs triggers the warning,
the model request, and a `put` that overwrites the stale entry (a subsequent
`get` returns the recomputed value); the call returns normally in both
cases. -/
theorem translate_chunk_cache_validation
    (cleanSpaces : Text → Text) (translateTexts : List Text → List Text)
    (s : Store) (chunk : Chunk) :
    (∀ v, storeGet s chunk.hash = some v →
      v.length = (chunk.head ++ chunk.body ++ chunk.tail).length →
      translate_chunk cleanSpaces translateTexts (some s) chunk =
        { texts := (v.drop chunk.head.length).take chunk.body.length
          store := some s
          model_called := false
          warned := false }) ∧
    (∀ v, storeGet s chunk.hash = some v →
      v.length ≠ (chunk.head ++ chunk.body ++ chunk.tail).length →
      translate_chunk cleanSpaces translateTexts (some s) chunk =
        { texts := (((translateTexts (chunk.head ++ chunk.body ++ chunk.tail)).map
              cleanSpaces).drop chunk.head.length).take chunk.body.length
          store := some (storePut s chunk.hash
            ((translateTexts (chunk.head ++ chunk.body ++ chunk.tail)).map
              cleanSpaces))
          model_called := true
          warned := true } ∧
      storeGet (storePut s chunk.hash
          ((translateTexts (chunk.head ++ chunk.body ++ chunk.tail)).map
            cleanSpaces)) chunk.hash =
        some ((translateTexts (chunk.head ++ chunk.body ++ chunk.tail)).map
          cleanSpaces)) := by
  constructor
  · intro v hget hlen
    simp [translate_chunk, hget, hlen]
  · intro v hget hlen
    constructor
    · have hlen' : chunk.head.length + (chunk.body.length + chunk.tail.length) ≠
          v.length := by
        simp [List.length_append] at hlen
        omega
      simp [translate_chunk, hget, hlen', bne_iff_ne]
    · simp [storeGet, storePut]

/-- Witness for `translate_chunk_cache_validation`: a one-entry cache with a
matching-length entry is used without a model call, and a wrong-length entry
is recomputed and overwritten. -/
theorem translate_chunk_cache_validation_witness :
    (translate_chunk id (fun ts => ts) (some [([7], [[1]])])
        { index := 0, hash := [7], head := [], body := [[2]], tail := [],
          tokens_count := 1 } =
      { texts := [[1]], store := some [([7], [[1]])],
        model_called := false, warned := false }) ∧
    (translate_chunk id (fun ts => ts) (some [([7], [[1], [3]])])
        { index := 0, hash := [7], head := [], body := [[2]], tail := [],
          tokens_count := 1 } =
      { texts := [[2]], store := some [([7], [[2]]), ([7], [[1], [3]])],
        model_called := true, warned := true }) :=
  ⟨(translate_chunk_cache_validation id (fun ts => ts) [([7], [[1]])]
      { index := 0, hash := [7], head := [], body := [[2]], tail := [],
        tokens_count := 1 }).1 [[1]] (by rfl) (by decide),
   ((translate_chunk_cache_validation id (fun ts => ts) [([7], [[1], [3]])]
      { index := 0, hash := [7], head := [], body := [[2]], tail := [],
        tokens_count := 1 }).2 [[1], [3]] (by rfl) (by decide)).1⟩

/-! ## C8: `_parse_translated_response` -/

/-- Counterexample to C8 as stated: a child whose `id` (99) lies outside
`[1, sources_count]` but whose text is `None` is skipped by the
`fragment_element.text is None` check before the id is ever validated, so no
"invalid fragment id" error is raised. -/
theorem parse_skips_textless_out_of_range_child :
    parse_translated_response [{ text := none, id := some 99 }] 1 =
      Except.ok [[]] ∧
    ¬(1 ≤ (99 : Int) ∧ (99 : Int) ≤ 1) :=
  ⟨by rfl, by decide⟩

/-- The per-child update applied to the slot of source position `j`
(0-based): a child with text and id `j + 1` overwrites the slot with its
stripped text. -/
def slotStep (j : Nat) (acc : Option Text) (c : RespChild) : Option Text :=
  if c.text.isSome && c.id == some ((j : Int) + 1) then
    some (stripText (c.text.getD []))
  else
    acc

/-- When every child carrying both text and an id is in range, the child
loop succeeds and each slot holds the fold of the per-child updates. -/
lemma parseLoop_ok :
    ∀ (children : List RespChild) (frs : List (Option Text)),
      (∀ c ∈ children, ∀ t, c.text = some t → ∀ i, c.id = some i →
        1 ≤ i ∧ i ≤ (frs.length : Int)) →
      ∃ frs', parseLoop children frs = .ok frs' ∧
        frs'.length = frs.length ∧
        ∀ j, j < frs.length →
          frs'.getD j none = children.foldl (slotStep j) (frs.getD j none) := by
  intro children
  induction children with
  | nil => exact fun frs _ => ⟨frs, rfl, rfl, fun j _ => rfl⟩
  | cons c rest ih =>
    intro frs hall
    rcases hct : c.text with - | t
    · have hred : parseLoop (c :: rest) frs = parseLoop rest frs := by
        simp [parseLoop, hct]
      obtain ⟨frs', h1, h2, h3⟩ :=
        ih frs (fun x hx => hall x (List.mem_cons_of_mem c hx))
      refine ⟨frs', hred ▸ h1, h2, fun j hj => ?_⟩
      rw [List.foldl_cons]
      have hstep : ∀ acc, slotStep j acc c = acc := by
        intro acc
        simp [slotStep, hct]
      rw [hstep]
      exact h3 j hj
    · rcases hci : c.id with - | i
      · have hred : parseLoop (c :: rest) frs = parseLoop rest frs := by
          simp [parseLoop, hct, hci]
        obtain ⟨frs', h1, h2, h3⟩ :=
          ih frs (fun x hx => hall x (List.mem_cons_of_mem c hx))
        refine ⟨frs', hred ▸ h1, h2, fun j hj => ?_⟩
        rw [List.foldl_cons]
        have hstep : ∀ acc, slotStep j acc c = acc := by
          intro acc
          simp [slotStep, hct, hci]
        rw [hstep]
        exact h3 j hj
      · have hrange := hall c (by simp) t hct i hci
        have hred : parseLoop (c :: rest) frs =
            parseLoop rest (frs.set (i - 1).toNat (some (stripText t))) := by
          have h1 : ¬(i - 1 < 0) := by omega
          have h2 : ¬((frs.length : Int) ≤ i - 1) := by omega
          simp [parseLoop, hct, hci, h1, h2]
        obtain ⟨frs', h1, h2, h3⟩ :=
          ih (frs.set (i - 1).toNat (some (stripText t)))
            (fun x hx => by
              have := hall x (List.mem_cons_of_mem c hx)
              simpa [List.length_set] using this)
        refine ⟨frs', hred ▸ h1, by simpa [List.length_set] using h2, fun j hj => ?_⟩
        rw [List.foldl_cons]
        have hj2 : j < (frs.set (i - 1).toNat (some (stripText t))).length := by
          simpa [List.length_set] using hj
        have hset : (frs.set (i - 1).toNat (some (stripText t))).getD j none =
            slotStep j (frs.getD j none) c := by
          rw [List.getD_eq_getElem?_getD, List.getD_eq_getElem?_getD,
            List.getElem?_set]
          by_cases hij : i = (j : Int) + 1
          · have hijn : (i - 1).toNat = j := by omega
            simp [hijn, hj, slotStep, hct, hci, hij]
          · have hijn : (i - 1).toNat ≠ j := by omega
            have hijn2 : ¬(i.toNat - 1 = j) := by omega
            simp [hijn, hijn2, slotStep, hct, hci, hij]
        rw [← hset]
        exact h3 j hj2

/-- If some child carries text and an out-of-range id, the child loop
raises an "invalid fragment id" error. -/
lemma parseLoop_error :
    ∀ (children : List RespChild) (frs : List (Option Text)),
      (∃ c ∈ children, c.text.isSome ∧ ∃ i, c.id = some i ∧
        (i < 1 ∨ (frs.length : Int) < i)) →
      ∃ i₀ : Int, parseLoop children frs =
        .error ("invalid fragment id: " ++ toString i₀) := by
  intro children
  induction children with
  | nil => intro frs hex; simp at hex
  | cons c rest ih =>
    intro frs hex
    rcases hct : c.text with - | t
    · have hred : parseLoop (c :: rest) frs = parseLoop rest frs := by
        simp [parseLoop, hct]
      rw [hred]
      refine ih frs ?_
      rcases hex with ⟨x, hx, hsome, hi⟩
      rcases List.mem_cons.mp hx with rfl | hx'
      · rw [hct] at hsome
        simp at hsome
      · exact ⟨x, hx', hsome, hi⟩
    · rcases hci : c.id with - | i
      · have hred : parseLoop (c :: rest) frs = parseLoop rest frs := by
          simp [parseLoop, hct, hci]
        rw [hred]
        refine ih frs ?_
        rcases hex with ⟨x, hx, hsome, j, hj, hrange⟩
        rcases List.mem_cons.mp hx with rfl | hx'
        · rw [hci] at hj
          simp at hj
        · exact ⟨x, hx', hsome, j, hj, hrange⟩
      · by_cases hout : i < 1 ∨ (frs.length : Int) < i
        · refine ⟨i, ?_⟩
          have h1 : (i - 1 < 0) ∨ ((frs.length : Int) ≤ i - 1) := by omega
          simp only [parseLoop, hct, hci]
          rcases h1 with h1 | h1 <;> simp [h1]
        · have hred : parseLoop (c :: rest) frs =
              parseLoop rest (frs.set (i - 1).toNat (some (stripText t))) := by
            have h1 : ¬(i - 1 < 0) := by omega
            have h2 : ¬((frs.length : Int) ≤ i - 1) := by omega
            simp [parseLoop, hct, hci, h1, h2]
          rw [hred]
          refine ih _ ?_
          rcases hex with ⟨x, hx, hsome, j, hj, hrange⟩
          rcases List.mem_cons.mp hx with rfl | hx'
          · rw [hci] at hj
            have hji : i = j := by simpa using hj
            exfalso
            omega
          · exact ⟨x, hx', hsome, j, hj, by simpa [List.length_set] using hrange⟩

/-- C8 (amended): children lacking text (or an id attribute) are skipped
before the id is validated.  Among the children that carry both text and a
numeric id: if every id lies in `[1, sources_count]`, parsing succeeds with
a list of length `sources_count` in which position `j` holds the
last-recorded stripped text of the children with id `j + 1` (positions never
populated become the empty string); if some such child's id lies outside
`[1, sources_count]`, parsing raises "invalid fragment id". -/
theorem parse_translated_response_spec (children : List RespChild) (n : Nat) :
    ((∀ c ∈ children, ∀ t, c.text = some t → ∀ i, c.id = some i →
        1 ≤ i ∧ i ≤ (n : Int)) →
      ∃ l, parse_translated_response children n = .ok l ∧
        l.length = n ∧
        ∀ j, j < n →
          l.getD j [] = (children.foldl (slotStep j) none).getD []) ∧
    ((∃ c ∈ children, c.text.isSome ∧ ∃ i, c.id = some i ∧
        (i < 1 ∨ (n : Int) < i)) →
      ∃ i₀ : Int, parse_translated_response children n =
        .error ("invalid fragment id: " ++ toString i₀)) := by
  constructor
  · intro hall
    obtain ⟨frs', h1, h2, h3⟩ := parseLoop_ok children (List.replicate n none)
      (by simpa [List.length_replicate] using hall)
    refine ⟨frs'.map (fun f => f.getD []), ?_, by simpa using h2, ?_⟩
    · rw [parse_translated_response, h1]
      rfl
    · intro j hj
      have hj' : j < (List.replicate n (none : Option Text)).length := by
        simpa using hj
      have hthis := h3 j hj'
      have hjlen : j < frs'.length := by
        rw [h2]
        simpa using hj
      rw [List.getD_eq_getElem?_getD, List.getElem?_eq_getElem hjlen,
        List.getD_eq_getElem?_getD, List.getElem?_replicate, if_pos hj] at hthis
      simp only [Option.getD_some] at hthis
      rw [List.getD_eq_getElem?_getD, List.getElem?_map,
        List.getElem?_eq_getElem hjlen]
      simp [hthis]
  · intro hex
    obtain ⟨i₀, herr⟩ := parseLoop_error children (List.replicate n none)
      (by simpa [List.length_replicate] using hex)
    refine ⟨i₀, ?_⟩
    rw [parse_translated_response, herr]
    rfl

/-- Witness for `parse_translated_response_spec`: two children with ids 2
and 2 — the later one wins position 1, position 0 stays empty; and a reply
containing a text-bearing child with id 3 against two sources errors. -/
theorem parse_translated_response_spec_witness :
    (∃ l, parse_translated_response
        [{ text := some [32, 65, 32], id := some 2 },
         { text := some [66], id := some 2 }] 2 = .ok l ∧
      l.length = 2 ∧
      ∀ j, j < 2 →
        l.getD j [] =
          (([{ text := some [32, 65, 32], id := some 2 },
             { text := some [66], id := some 2 }] : List RespChild).foldl
            (slotStep j) none).getD []) ∧
    (∃ i₀ : Int, parse_translated_response
        [{ text := some [65], id := some 3 }] 2 =
      .error ("invalid fragment id: " ++ toString i₀)) :=
  ⟨(parse_translated_response_spec
      [{ text := some [32, 65, 32], id := some 2 },
       { text := some [66], id := some 2 }] 2).1 (by decide),
   (parse_translated_response_spec
      [{ text := some [65], id := some 3 }] 2).2
     ⟨{ text := some [65], id := some 3 }, by simp, by simp, 3, by simp, by omega⟩⟩

/-! ## C6: `split_into_chunks` yields increasing indices and partitioning
body windows -/

/-- Payload (fragment index) list of a group part, flattened. -/
def partPayloads (part : List GroupItem) : List Nat :=
  (iterGroupPart part).map (fun r => r.payload)

/-- Modelled from the spec: the contract of the external segmentation
`split` primitive (`resource_segmentation`, an external collaborator):
every group's head/body/tail flatten to runs of consecutive resource
indices, adjacent in head-body-tail order, the body is nonempty, a nonempty
part holds at least one resource, and the bodies in order cover every
fragment index exactly once. -/
def GroupsWellFormed (N : Nat) (groups : List Group) : Prop :=
  (∀ g ∈ groups,
    partPayloads g.body ≠ [] ∧
    (g.head ≠ [] → partPayloads g.head ≠ []) ∧
    (g.tail ≠ [] → partPayloads g.tail ≠ []) ∧
    List.Chain' (fun a b => b = a + 1)
      (partPayloads g.head ++ partPayloads g.body ++ partPayloads g.tail)) ∧
  (groups.map (fun g => partPayloads g.body)).flatten = List.range N

instance (N : Nat) (groups : List Group) : Decidable (GroupsWellFormed N groups) :=
  inferInstanceAs (Decidable (
    (∀ g ∈ groups,
      partPayloads g.body ≠ [] ∧
      (g.head ≠ [] → partPayloads g.head ≠ []) ∧
      (g.tail ≠ [] → partPayloads g.tail ≠ []) ∧
      List.Chain' (fun a b => b = a + 1)
        (partPayloads g.head ++ partPayloads g.body ++ partPayloads g.tail)) ∧
    (groups.map (fun g => partPayloads g.body)).flatten = List.range N))

/-- A consecutive chain of naturals is an interval starting at its head. -/
lemma chain_eq_range' :
    ∀ (l : List Nat), List.Chain' (fun a b => b = a + 1) l →
      l = List.range' (l.headD 0) l.length := by
  intro l
  induction l with
  | nil => intro _; rfl
  | cons a rest ih =>
    intro hch
    cases rest with
    | nil => rfl
    | cons b rest2 =>
      obtain ⟨hab, hch2⟩ := List.chain'_cons.mp hch
      have hr := ih hch2
      simp only [List.headD_cons] at hr ⊢
      calc a :: b :: rest2 = a :: List.range' b (b :: rest2).length := by rw [← hr]
        _ = List.range' a ((b :: rest2).length + 1) := by
            rw [List.range'_succ, hab]
        _ = List.range' a (a :: b :: rest2).length := by simp

/-- The resource loop of `_group_part` on a consecutive run continuing from
`prev`: it returns the recorded start, the run's last payload and the
accumulated token count. -/
lemma groupPartLoop_some :
    ∀ (rs : List Resource) (s prev tok : Nat),
      rs.map (fun r => r.payload) = List.range' (prev + 1) rs.length →
      groupPartLoop rs (some s) prev tok =
        some (s, prev + rs.length, tok + (rs.map (fun r => r.count)).sum) := by
  intro rs
  induction rs with
  | nil => intro s prev tok _; simp [groupPartLoop]
  | cons r rest ih =>
    intro s prev tok hpl
    simp only [List.map_cons, List.length_cons, List.range'_succ,
      List.cons.injEq] at hpl
    obtain ⟨h1, h2⟩ := hpl
    have h2' : rest.map (fun r => r.payload) =
        List.range' (r.payload + 1) rest.length := by
      rw [h1]
      exact h2
    rw [groupPartLoop, if_pos h1, ih s r.payload (tok + r.count) h2']
    simp only [List.length_cons, List.map_cons, List.sum_cons]
    have e1 : r.payload + rest.length = prev + (rest.length + 1) := by omega
    have e2 : tok + r.count + (rest.map (fun r => r.count)).sum =
        tok + (r.count + (rest.map (fun r => r.count)).sum) := by omega
    rw [e1, e2]

/-- Behavior of `_group_part` on a part whose payloads form the interval
`[s, s + m)`. -/
lemma group_part_spec (part : List GroupItem) (s m : Nat) (hm : 0 < m)
    (hpl : partPayloads part = List.range' s m) :
    group_part part =
      some (s, s + m - 1, ((iterGroupPart part).map (fun r => r.count)).sum) := by
  rw [group_part]
  cases hrs : iterGroupPart part with
  | nil =>
    exfalso
    rw [partPayloads, hrs] at hpl
    have := hpl.symm
    simp only [List.map_nil, List.range'_eq_nil] at this
    omega
  | cons r0 rest =>
    rw [partPayloads, hrs] at hpl
    have hm1 : m = rest.length + 1 := by
      have hlen := congrArg List.length hpl
      simpa using hlen.symm
    subst hm1
    rw [List.range'_succ] at hpl
    simp only [List.map_cons, List.cons.injEq] at hpl
    obtain ⟨h1, h2⟩ := hpl
    have h2' : rest.map (fun r => r.payload) =
        List.range' (r0.payload + 1) rest.length := by
      rw [h1]
      exact h2
    rw [groupPartLoop, groupPartLoop_some rest r0.payload r0.payload
      (0 + r0.count) h2']
    simp only [List.map_cons, List.sum_cons]
    have e2 : r0.payload + rest.length = s + (rest.length + 1) - 1 := by omega
    have e3 : 0 + r0.count + (rest.map (fun r => r.count)).sum =
        r0.count + (rest.map (fun r => r.count)).sum := by omega
    rw [e2, e3, h1]

/-- A part whose payloads form a nonempty interval is itself nonempty. -/
lemma part_isEmpty_false {part : List GroupItem} {s m : Nat} (hm : 0 < m)
    (h : partPayloads part = List.range' s m) : part.isEmpty = false := by
  cases part with
  | nil =>
    exfalso
    have h2 : List.range' s m = ([] : List Nat) := by
      simpa [partPayloads, iterGroupPart] using h.symm
    rw [List.range'_eq_nil] at h2
    omega
  | cons a l => rfl

/-- Behavior of the per-group range construction when the body covers
`[sb, sb + mb)` with adjacent optional head/tail runs: it succeeds and the
resulting range has this body window, `head_index ≤ body_index ≤
tail_index`, and the given enumeration index. -/
lemma chunkRangeOfGroup_spec (index : Nat) (g : Group) (sb mb : Nat)
    (hmb : 0 < mb)
    (hbody : partPayloads g.body = List.range' sb mb)
    (hhead : g.head = [] ∨ ∃ sh mh, 0 < mh ∧
      partPayloads g.head = List.range' sh mh ∧ sh + mh = sb)
    (htail : g.tail = [] ∨ ∃ mt, 0 < mt ∧
      partPayloads g.tail = List.range' (sb + mb) mt) :
    ∃ r, chunkRangeOfGroup index g = some r ∧
      r.index = index ∧
      r.head_index ≤ r.body_index ∧ r.body_index ≤ r.tail_index ∧
      r.body_index = sb ∧ r.tail_index = sb + mb := by
  have hbodyPart := group_part_spec g.body sb mb hmb hbody
  have hbe : sb + mb - 1 + 1 = sb + mb := by omega
  rcases hhead with hh | ⟨sh, mh, hmh, hplh, hsh⟩
  · have hhe : g.head.isEmpty = true := by rw [hh]; rfl
    rcases htail with ht | ⟨mt, hmt, hplt⟩
    · have hte : g.tail.isEmpty = true := by rw [ht]; rfl
      refine ⟨{ index := index, head_remain_tokens := g.head_remain_count,
                tail_remain_tokens := g.tail_remain_count, head_index := sb,
                body_index := sb, tail_index := sb + mb,
                fragments_count := sb + mb - sb,
                tokens_count :=
                  ((iterGroupPart g.body).map (fun r => r.count)).sum },
        ?_, rfl, le_refl _, Nat.le_add_right sb mb, rfl, rfl⟩
      simp [chunkRangeOfGroup, hbodyPart, hhe, hte, hbe]
    · have hte : g.tail.isEmpty = false := part_isEmpty_false hmt hplt
      have htailPart := group_part_spec g.tail (sb + mb) mt hmt hplt
      refine ⟨{ index := index, head_remain_tokens := g.head_remain_count,
                tail_remain_tokens := g.tail_remain_count, head_index := sb,
                body_index := sb, tail_index := sb + mb,
                fragments_count := sb + mb + mt - 1 - sb + 1,
                tokens_count :=
                  ((iterGroupPart g.body).map (fun r => r.count)).sum },
        ?_, rfl, le_refl _, Nat.le_add_right sb mb, rfl, rfl⟩
      simp [chunkRangeOfGroup, hbodyPart, htailPart, hhe, hte, hbe]
  · have hhe : g.head.isEmpty = false := part_isEmpty_false hmh hplh
    have hheadPart := group_part_spec g.head sh mh hmh hplh
    have hguard : sh + mh - 1 + 1 = sb := by omega
    rcases htail with ht | ⟨mt, hmt, hplt⟩
    · have hte : g.tail.isEmpty = true := by rw [ht]; rfl
      refine ⟨{ index := index, head_remain_tokens := g.head_remain_count,
                tail_remain_tokens := g.tail_remain_count, head_index := sh,
                body_index := sb, tail_index := sb + mb,
                fragments_count := sb + mb - sh,
                tokens_count :=
                  ((iterGroupPart g.body).map (fun r => r.count)).sum },
        ?_, rfl, (by show sh ≤ sb; omega), Nat.le_add_right sb mb, rfl, rfl⟩
      simp [chunkRangeOfGroup, hbodyPart, hheadPart, hhe, hte, hguard, hbe]
    · have hte : g.tail.isEmpty = false := part_isEmpty_false hmt hplt
      have htailPart := group_part_spec g.tail (sb + mb) mt hmt hplt
      refine ⟨{ index := index, head_remain_tokens := g.head_remain_count,
                tail_remain_tokens := g.tail_remain_count, head_index := sh,
                body_index := sb, tail_index := sb + mb,
                fragments_count := sb + mb + mt - 1 - sh + 1,
                tokens_count :=
                  ((iterGroupPart g.body).map (fun r => r.count)).sum },
        ?_, rfl, (by show sh ≤ sb; omega), Nat.le_add_right sb mb, rfl, rfl⟩
      simp [chunkRangeOfGroup, hbodyPart, hheadPart, htailPart, hhe, hte,
        hguard, hbe]

/-- Last element of an interval. -/
lemma getLast?_range' (s m : Nat) (hm : 0 < m) :
    (List.range' s m).getLast? = some (s + m - 1) := by
  have hne : List.range' s m ≠ [] := by
    simp only [ne_eq, List.range'_eq_nil]
    omega
  rw [List.getLast?_eq_getLast _ hne, List.getLast_range' m hne]

/-- First element of a nonempty interval. -/
lemma head?_of_eq_range' {l : List Nat} {s m : Nat} (hm : 0 < m)
    (h : l = List.range' s m) : l.head? = some s := by
  rw [h, List.head?_range', if_neg (by omega)]

/-- Induction over the group list for `split_into_chunks`: with the group
contract holding and the bodies covering `[s, s + M)` in order, the mapM
over the enumeration from `i0` succeeds, produces ranges with indices
`i0, i0 + 1, ...`, each with `head_index ≤ body_index ≤ tail_index`, and
body windows tiling `[s, s + M)`. -/
lemma splitFrom_spec :
    ∀ (groups : List Group) (i0 s M : Nat),
      (∀ g ∈ groups,
        partPayloads g.body ≠ [] ∧
        (g.head ≠ [] → partPayloads g.head ≠ []) ∧
        (g.tail ≠ [] → partPayloads g.tail ≠ []) ∧
        List.Chain' (fun a b => b = a + 1)
          (partPayloads g.head ++ partPayloads g.body ++ partPayloads g.tail)) →
      (groups.map (fun g => partPayloads g.body)).flatten = List.range' s M →
      ∃ out, (List.enumFrom i0 groups).mapM
          (fun p => chunkRangeOfGroup p.1 p.2) = some out ∧
        out.map (fun r => r.index) = List.range' i0 out.length ∧
        (∀ r ∈ out, r.head_index ≤ r.body_index ∧ r.body_index ≤ r.tail_index) ∧
        (out.map (fun r =>
          List.range' r.body_index (r.tail_index - r.body_index))).flatten =
          List.range' s M := by
  intro groups
  induction groups with
  | nil =>
    intro i0 s M _ hflat
    exact ⟨[], rfl, rfl, by simp, by simpa using hflat⟩
  | cons g rest ih =>
    intro i0 s M hcond hflat
    obtain ⟨hbne, hhe, hte, hchain⟩ := hcond g (by simp)
    rw [List.chain'_append] at hchain
    obtain ⟨hchHB, hchT, hjunc2⟩ := hchain
    rw [List.chain'_append] at hchHB
    obtain ⟨hchH, hchB, hjunc1⟩ := hchHB
    have hflat' : partPayloads g.body ++
        (rest.map (fun g => partPayloads g.body)).flatten = List.range' s M := by
      simpa using hflat
    have hBlen : 0 < (partPayloads g.body).length := List.length_pos.mpr hbne
    -- the body covers [s, s + mb) and the remaining bodies cover the rest
    obtain ⟨mb, hmb, hbform, hrest, hmbM⟩ :
        ∃ mb, 0 < mb ∧ partPayloads g.body = List.range' s mb ∧
          (rest.map (fun g => partPayloads g.body)).flatten =
            List.range' (s + mb) (M - mb) ∧ mb ≤ M := by
      have hBform := chain_eq_range' _ hchB
      have hlen : (partPayloads g.body).length +
          ((rest.map (fun g => partPayloads g.body)).flatten).length = M := by
        have hl := congrArg List.length hflat'
        simpa [List.length_range'] using hl
      have hMsplit : List.range' s M =
          List.range' s (partPayloads g.body).length ++
            List.range' (s + (partPayloads g.body).length)
              (M - (partPayloads g.body).length) := by
        have happ := List.range'_append s (partPayloads g.body).length
          (M - (partPayloads g.body).length) 1
        simp only [one_mul] at happ
        have hM : M = M - (partPayloads g.body).length +
            (partPayloads g.body).length := by omega
        nth_rewrite 1 [hM]
        exact happ.symm
      obtain ⟨hBeq, hRest⟩ := List.append_inj (hflat'.trans hMsplit)
        (by simp [List.length_range'])
      exact ⟨(partPayloads g.body).length, hBlen, hBeq, hRest, by omega⟩
    -- head side condition for the per-group lemma
    have hheadcase : g.head = [] ∨ ∃ sh mh, 0 < mh ∧
        partPayloads g.head = List.range' sh mh ∧ sh + mh = s := by
      by_cases hH : g.head = []
      · exact Or.inl hH
      · right
        have hHne := hhe hH
        have hHlen : 0 < (partPayloads g.head).length := List.length_pos.mpr hHne
        obtain ⟨sh, mh, hmh, hhform⟩ : ∃ sh mh, 0 < mh ∧
            partPayloads g.head = List.range' sh mh :=
          ⟨(partPayloads g.head).headD 0, (partPayloads g.head).length, hHlen,
            chain_eq_range' _ hchH⟩
        refine ⟨sh, mh, hmh, hhform, ?_⟩
        have hlastH : (partPayloads g.head).getLast? = some (sh + mh - 1) := by
          rw [hhform, getLast?_range' sh mh hmh]
        have hheadB : (partPayloads g.body).head? = some s :=
          head?_of_eq_range' hmb hbform
        have := hjunc1 (sh + mh - 1) (by rw [Option.mem_def, hlastH]) s
          (by rw [Option.mem_def, hheadB])
        omega
    -- tail side condition for the per-group lemma
    have htailcase : g.tail = [] ∨ ∃ mt, 0 < mt ∧
        partPayloads g.tail = List.range' (s + mb) mt := by
      by_cases hT : g.tail = []
      · exact Or.inl hT
      · right
        have hTne := hte hT
        have hTlen : 0 < (partPayloads g.tail).length := List.length_pos.mpr hTne
        obtain ⟨st, mt, hmt, htform⟩ : ∃ st mt, 0 < mt ∧
            partPayloads g.tail = List.range' st mt :=
          ⟨(partPayloads g.tail).headD 0, (partPayloads g.tail).length, hTlen,
            chain_eq_range' _ hchT⟩
        have hlastB : (partPayloads g.head ++ partPayloads g.body).getLast? =
            some (s + mb - 1) := by
          rw [List.getLast?_append_of_ne_nil _ hbne, hbform,
            getLast?_range' s mb hmb]
        have hheadT : (partPayloads g.tail).head? = some st :=
          head?_of_eq_range' hmt htform
        have hj := hjunc2 (s + mb - 1) (by rw [Option.mem_def, hlastB]) st
          (by rw [Option.mem_def, hheadT])
        refine ⟨mt, hmt, ?_⟩
        have hst : st = s + mb := by omega
        rw [htform, hst]
    obtain ⟨r, hr, hridx, hrhb, hrbt, hrbs, hrts⟩ :=
      chunkRangeOfGroup_spec i0 g s mb hmb hbform hheadcase htailcase
    obtain ⟨out', hmap, hidx', hbounds', hflat''⟩ :=
      ih (i0 + 1) (s + mb) (M - mb)
        (fun g' hg' => hcond g' (List.mem_cons_of_mem g hg')) hrest
    refine ⟨r :: out', ?_, ?_, ?_, ?_⟩
    · rw [List.enumFrom_cons, List.mapM_cons, hr, hmap]
      rfl
    · simp only [List.map_cons, List.length_cons, List.range'_succ, hridx,
        hidx']
    · intro x hx
      rcases List.mem_cons.mp hx with rfl | hx'
      · exact ⟨hrhb, hrbt⟩
      · exact hbounds' x hx'
    · simp only [List.map_cons, List.flatten_cons, hflat'', hrbs, hrts]
      have hwin : s + mb - s = mb := by omega
      rw [hwin]
      have happ := List.range'_append s mb (M - mb) 1
      simp only [one_mul] at happ
      rw [happ]
      congr 1
      omega

/-- C6: over any well-formed output of the external segmentation primitive,
`split_into_chunks` succeeds and yields ranges whose `index` values are
exactly `0, 1, 2, ...` in order, which satisfy
`head_index ≤ body_index ≤ tail_index`, and whose body windows
`[body_index, tail_index)` tile the whole fragment index range `[0, N)`
with no gaps and no overlaps. -/
theorem split_into_chunks_ranges_partition (N : Nat) (groups : List Group)
    (hwf : GroupsWellFormed N groups) :
    ∃ out, split_into_chunks groups = some out ∧
      out.map (fun r => r.index) = List.range out.length ∧
      (∀ r ∈ out, r.head_index ≤ r.body_index ∧ r.body_index ≤ r.tail_index) ∧
      (out.map (fun r =>
        List.range' r.body_index (r.tail_index - r.body_index))).flatten =
        List.range N := by
  obtain ⟨hconds, hflat⟩ := hwf
  obtain ⟨out, h1, h2, h3, h4⟩ := splitFrom_spec groups 0 0 N hconds
    (by rw [hflat, List.range_eq_range'])
  refine ⟨out, ?_, ?_, h3, ?_⟩
  · rw [split_into_chunks, List.enum_eq_enumFrom]
    exact h1
  · rw [h2, List.range_eq_range']
  · rw [h4, List.range_eq_range']

/-- Witness for `split_into_chunks_ranges_partition`: two groups over four
fragments — bodies `[0,1]` and `[2,3]`, a tail context `[2]` on the first
and a head context `[1]` (inside a nested segment) on the second. -/
theorem split_into_chunks_ranges_partition_witness :
    ∃ out, split_into_chunks
        [{ head := [], body := [.res { count := 2, payload := 0 },
             .res { count := 3, payload := 1 }],
           tail := [.res { count := 1, payload := 2 }],
           head_remain_count := 0, tail_remain_count := 5 },
         { head := [.seg [{ count := 3, payload := 1 }]],
           body := [.res { count := 1, payload := 2 },
             .res { count := 2, payload := 3 }],
           tail := [], head_remain_count := 4, tail_remain_count := 0 }] =
        some out ∧
      out.map (fun r => r.index) = List.range out.length ∧
      (∀ r ∈ out, r.head_index ≤ r.body_index ∧ r.body_index ≤ r.tail_index) ∧
      (out.map (fun r =>
        List.range' r.body_index (r.tail_index - r.body_index))).flatten =
        List.range 4 :=
  split_into_chunks_ranges_partition 4 _ (by
    constructor
    · intro g hg
      fin_cases hg <;>
        exact ⟨by decide, by decide, by decide,
          by norm_num [partPayloads, iterGroupPart, List.chain'_cons]⟩
    · decide)

end EpubTranslator
